import Mathlib

/-!
Verification of `src/scripts/generate_test_audio.py` (`generate_pencil_sound`).

The script is a single-pass signal pipeline:
  t = np.linspace(0, duration, int(sample_rate * duration), False)
  white_noise = np.random.normal(0, 0.1, len(t))
  frequencies = np.fft.fftfreq(len(t), 1/sample_rate)
  fft_noise = np.fft.fft(white_noise)
  pink_filter = np.where(frequencies != 0, 1/np.sqrt(np.abs(frequencies)), 1)
  pink_filter[0] = 1
  fft_filtered = fft_noise * pink_filter
  pink_noise = np.real(np.fft.ifft(fft_filtered))
  pink_noise = pink_noise / np.max(np.abs(pink_noise)) * 0.3
  harmonic = 0.1*sin(2*pi*2000*t)*exp(-t*5) + 0.05*sin(2*pi*3000*t)*exp(-t*8)
  sound = pink_noise + harmonic
  envelope = ones; envelope[:fade] = linspace(0,1,fade); envelope[-fade:] = linspace(1,0,fade)
  sound *= envelope
  sound = np.clip(sound * 32767, -32768, 32767).astype(np.int16)

We embed the pipeline shallowly: the random draws `np.random.normal` become an
explicit input `ns : ℕ → ℝ`; exact rationals model the float parameters; the DFT
is the exact complex exponential sum; Python `int()` and C casts are modelled by
truncation toward zero.  `genChecked` additionally models the numpy error paths
(negative linspace count, FFT of an empty array, broadcast shape mismatch in the
envelope slice assignments) as `Except.error`.
-/

namespace Whisprin

/-- Truncation toward zero, the semantics of Python `int(x)` on a float and of a
C cast from floating point to a signed integer type. -/
def ratTrunc (x : ℚ) : ℤ := if 0 ≤ x then ⌊x⌋ else ⌈x⌉

/-- Line 15: `int(sample_rate * duration)`, the number of samples
(`len(t)` after `np.linspace(0, duration, int(sample_rate*duration), False)`). -/
def numSamples (d : ℚ) (r : ℕ) : ℕ := (ratTrunc ((r : ℚ) * d)).toNat

/-- Line 44: `fade_samples = int(0.05 * sample_rate)`. -/
def fadeSamples (r : ℕ) : ℕ := (ratTrunc ((5 / 100 : ℚ) * r)).toNat

/-- Line 15: the time axis; `np.linspace(0, duration, n, endpoint=False)` places
sample `i` at `duration * i / n`. -/
def tQ (d : ℚ) (r : ℕ) (i : ℕ) : ℚ := d * i / numSamples d r

/-- Line 22: `np.fft.fftfreq(n, 1/sample_rate)`: bin `k` carries frequency
`k * r / n` for `k < (n+1)/2` and `(k - n) * r / n` for the remaining bins. -/
def freqQ (n r : ℕ) (k : ℕ) : ℚ :=
  (((if k < (n + 1) / 2 then (k : ℤ) else (k : ℤ) - n) * r : ℤ) : ℚ) / n

/-- Lines 26-27: `np.where(frequencies != 0, 1/np.sqrt(np.abs(frequencies)), 1)`
followed by `pink_filter[0] = 1`.  The bin-0 assignment is modelled by the outer
branch; `np.where` supplies 1 at every other zero-frequency bin. -/
noncomputable def pinkFilter (n r : ℕ) (k : ℕ) : ℝ :=
  if k = 0 then 1
  else if freqQ n r k = 0 then 1
  else 1 / Real.sqrt |(freqQ n r k : ℝ)|

/-- Line 23: `np.fft.fft(white_noise)`, the forward DFT
`X_k = Σ_j x_j · exp(-2πi·j·k/n)`. -/
noncomputable def fftNoise (d : ℚ) (r : ℕ) (ns : ℕ → ℝ) (k : ℕ) : ℂ :=
  ∑ j ∈ Finset.range (numSamples d r),
    (ns j : ℂ) *
      Complex.exp (-(2 * (Real.pi : ℂ) * Complex.I) * j * k / (numSamples d r))

/-- Line 29: `fft_filtered = fft_noise * pink_filter`. -/
noncomputable def fftFiltered (d : ℚ) (r : ℕ) (ns : ℕ → ℝ) (k : ℕ) : ℂ :=
  fftNoise d r ns k * (pinkFilter (numSamples d r) r k : ℂ)

/-- Line 30: `np.real(np.fft.ifft(fft_filtered))`, the inverse DFT
`x_j = (1/n) Σ_k X_k · exp(2πi·j·k/n)` followed by taking the real part. -/
noncomputable def pinkRaw (d : ℚ) (r : ℕ) (ns : ℕ → ℝ) (j : ℕ) : ℝ :=
  ((1 / (numSamples d r : ℂ)) *
    ∑ k ∈ Finset.range (numSamples d r),
      fftFiltered d r ns k *
        Complex.exp ((2 * (Real.pi : ℂ) * Complex.I) * j * k / (numSamples d r))).re

/-- `l.foldr max 0`, the value of `np.max` on a list of nonnegative reals. -/
noncomputable def listMax (l : List ℝ) : ℝ := l.foldr max 0

/-- Line 33: `np.max(np.abs(buffer))` for a buffer of length `n` given as an
indexing function. -/
noncomputable def maxAbs (n : ℕ) (f : ℕ → ℝ) : ℝ :=
  listMax ((List.range n).map fun i => |f i|)

/-- Line 33: `pink_noise = pink_noise / np.max(np.abs(pink_noise)) * 0.3`. -/
noncomputable def pinkNoise (d : ℚ) (r : ℕ) (ns : ℕ → ℝ) (j : ℕ) : ℝ :=
  pinkRaw d r ns j / maxAbs (numSamples d r) (pinkRaw d r ns) * (3 / 10)

/-- Lines 36-37: the two damped sinusoidal partials
`0.1*sin(2π·2000·t)*exp(-t*5) + 0.05*sin(2π·3000·t)*exp(-t*8)`. -/
noncomputable def harmonic (d : ℚ) (r : ℕ) (i : ℕ) : ℝ :=
  (1 / 10) * Real.sin (2 * Real.pi * 2000 * (tQ d r i : ℝ)) *
      Real.exp (-(tQ d r i : ℝ) * 5) +
    (1 / 20) * Real.sin (2 * Real.pi * 3000 * (tQ d r i : ℝ)) *
      Real.exp (-(tQ d r i : ℝ) * 8)

/-- Line 40: `sound = pink_noise + harmonic`. -/
noncomputable def sound (d : ℚ) (r : ℕ) (ns : ℕ → ℝ) (i : ℕ) : ℝ :=
  pinkNoise d r ns i + harmonic d r i

/-- `np.linspace(0, 1, fs)` at position `j`: the fade-in ramp values.
numpy returns `[0.]` when `fs = 1` and `j/(fs-1)` otherwise. -/
def linIn (fs j : ℕ) : ℚ := if fs = 1 then 0 else (j : ℚ) / ((fs : ℚ) - 1)

/-- `np.linspace(1, 0, fs)` at position `j`: the fade-out ramp values.
numpy returns `[1.]` when `fs = 1` and `1 - j/(fs-1)` otherwise. -/
def linOut (fs j : ℕ) : ℚ := if fs = 1 then 1 else 1 - (j : ℚ) / ((fs : ℚ) - 1)

/-- Lines 43-46: the envelope.  Start from all ones, write the fade-in ramp into
the first `fs` slots, then write the fade-out ramp into the last `fs` slots;
the fade-out assignment happens second, so on overlap it wins.  Valid for
indices `i < n`. -/
def envelope (n fs i : ℕ) : ℚ :=
  if n - fs ≤ i then linOut fs (i - (n - fs))
  else if i < fs then linIn fs i
  else 1

/-- Line 48: `sound *= envelope`. -/
noncomputable def soundEnv (d : ℚ) (r : ℕ) (ns : ℕ → ℝ) (i : ℕ) : ℝ :=
  sound d r ns i * (envelope (numSamples d r) (fadeSamples r) i : ℝ)

/-- Line 51: `np.clip(v, -32768, 32767)`, i.e.
`np.minimum(32767, np.maximum(v, -32768))`. -/
noncomputable def clip32 (x : ℝ) : ℝ := min 32767 (max x (-32768))

/-- Truncation toward zero on the reals: the semantics of
`.astype(np.int16)` applied to an in-range float. -/
noncomputable def truncR (x : ℝ) : ℤ := if 0 ≤ x then ⌊x⌋ else ⌈x⌉

/-- Line 51: the quantizer
`np.clip(sound * 32767, -32768, 32767).astype(np.int16)` on one sample. -/
noncomputable def quantize (x : ℝ) : ℤ := truncR (clip32 (32767 * x))

/-- The full generator with numpy's error paths made explicit:
`np.linspace` raises on a negative sample count, `np.fft.fft` raises on an
empty array, and the two envelope slice assignments raise a broadcast error
when `fade_samples` is 0 (with a nonempty buffer) or exceeds the buffer
length.  On success it returns the quantized sample buffer. -/
noncomputable def genChecked (d : ℚ) (r : ℕ) (ns : ℕ → ℝ) : Except String (List ℤ) :=
  if ratTrunc ((r : ℚ) * d) < 0 then
    Except.error "Number of samples must be non-negative"
  else if numSamples d r = 0 then
    Except.error "Invalid number of FFT data points"
  else if fadeSamples r = 0 ∨ numSamples d r < fadeSamples r then
    Except.error "could not broadcast input array"
  else
    Except.ok ((List.range (numSamples d r)).map fun i => quantize (soundEnv d r ns i))

/-- A concrete stand-in for the random draws: the constant-1 noise stream,
used to evaluate the pipeline on a small concrete input. -/
def onesNoise : ℕ → ℝ := fun _ => 1

/-! ### Basic lemmas about truncation toward zero -/

theorem ratTrunc_zero : ratTrunc 0 = 0 := by simp [ratTrunc]

theorem ratTrunc_eq_floor {x : ℚ} (h : 0 ≤ x) : ratTrunc x = ⌊x⌋ := by
  simp [ratTrunc, h]

theorem one_le_of_one_le_ratTrunc {x : ℚ} (h : 1 ≤ ratTrunc x) : 1 ≤ x := by
  unfold ratTrunc at h
  split at h
  · exact_mod_cast le_trans (by exact_mod_cast h) (Int.floor_le x)
  · exfalso
    have hx : x < 0 := lt_of_not_le (by assumption)
    have hc : ⌈x⌉ ≤ 0 := Int.ceil_le.mpr (by exact_mod_cast le_of_lt hx)
    omega

/-! ### C8: duration 0 makes the generator fail before any buffer is built -/

/-- C8: with `duration = 0.0` the sample count is 0 and `np.fft.fft` raises on
the empty array, so the generator fails with an error before producing a sample
buffer; the writer is never reached and no empty-data file is produced. -/
theorem generator_fails_on_zero_duration (r : ℕ) (ns : ℕ → ℝ) :
    genChecked 0 r ns = Except.error "Invalid number of FFT data points" := by
  have h0 : ratTrunc ((r : ℚ) * 0) = 0 := by rw [mul_zero, ratTrunc_zero]
  have hn : numSamples 0 r = 0 := by unfold numSamples; rw [h0]; rfl
  unfold genChecked
  rw [if_neg (by rw [h0]; omega), if_pos hn]

/-! ### C5: the fade-sample count -/

/-- C5 counterexample: at sample rate 30 the code computes
`int(0.05 * 30) = int(1.5) = 1` fade samples, while `round(0.05 * 30) = 2`. -/
theorem fadeSamples_ne_round_at_30 :
    fadeSamples 30 ≠ (round ((5 / 100 : ℚ) * 30)).toNat := by
  have h1 : fadeSamples 30 = 1 := by
    unfold fadeSamples ratTrunc
    rw [if_pos (by norm_num)]
    norm_num
  have h2 : round ((5 / 100 : ℚ) * 30) = 2 := by norm_num [round_eq]
  rw [h1, h2]
  decide

theorem fadeSamples_div (r : ℕ) : fadeSamples r = r / 20 := by
  unfold fadeSamples
  rw [ratTrunc_eq_floor (by positivity)]
  have h : (5 / 100 : ℚ) * r = ((r : ℤ) : ℚ) / ((20 : ℕ) : ℚ) := by push_cast; ring
  rw [h, Rat.floor_intCast_div_natCast]
  omega

/-- C5 amended: the fade-sample count is `int(0.05 * R)`, i.e. `0.05 * R`
rounded DOWN (truncated), which equals the natural-number division `R / 20`;
it is not rounded to nearest. -/
theorem fadeSamples_eq_div_20 (r : ℕ) : fadeSamples r = r / 20 :=
  fadeSamples_div r

/-! ### C2: the quantized output range -/

theorem clip32_le (x : ℝ) : clip32 x ≤ 32767 := min_le_left _ _

theorem le_clip32 (x : ℝ) : -32768 ≤ clip32 x :=
  le_min (by norm_num) (le_max_right _ _)

/-- C2: every quantized sample lies in `[-32768, 32767]`, for every real input
sample (including samples whose magnitude exceeds 1 before scaling):
the clip bounds the value and the int16 cast truncates toward zero,
which cannot leave the clipped range. -/
theorem quantize_range (x : ℝ) :
    -32768 ≤ quantize x ∧ quantize x ≤ 32767 := by
  unfold quantize truncR
  set v := clip32 (32767 * x) with hv
  have h1 : v ≤ 32767 := clip32_le _
  have h2 : -32768 ≤ v := le_clip32 _
  split
  · constructor
    · have : (0 : ℤ) ≤ ⌊v⌋ := Int.floor_nonneg.mpr (by assumption)
      omega
    · have : (⌊v⌋ : ℝ) ≤ 32767 := le_trans (Int.floor_le v) h1
      exact_mod_cast this
  · constructor
    · have : ((-32768 : ℤ) : ℝ) ≤ v := by exact_mod_cast h2
      have := Int.ceil_le_ceil this
      rwa [Int.ceil_intCast] at this
    · have hneg : v ≤ 0 := le_of_lt (lt_of_not_le (by assumption))
      have : ⌈v⌉ ≤ 0 := Int.ceil_le.mpr (by exact_mod_cast hneg)
      omega

/-! ### C4: the quantizer rounds toward zero, not to nearest -/

/-- C4 counterexample: at sample value `x = 19/20` the scaled clipped value is
`32767 * 0.95 = 31128.65`; the code's int16 cast truncates it to `31128`,
while the nearest integer is `31129`. -/
theorem quantize_ne_round_at_nineteen_twentieths :
    quantize ((19 : ℝ) / 20) ≠ round (clip32 (32767 * ((19 : ℝ) / 20))) := by
  have hc : clip32 (32767 * ((19 : ℝ) / 20)) = 622573 / 20 := by
    unfold clip32
    rw [show (32767 * ((19 : ℝ) / 20)) = 622573 / 20 by norm_num]
    rw [max_eq_left (by norm_num), min_eq_right (by norm_num)]
  have hq : quantize ((19 : ℝ) / 20) = 31128 := by
    unfold quantize truncR
    rw [hc, if_pos (by norm_num)]
    rw [Int.floor_eq_iff]; norm_num
  have hr : round ((622573 : ℝ) / 20) = 31129 := by
    rw [round_eq, show ((622573 : ℝ) / 20 + 1 / 2) = 622583 / 20 by norm_num]
    rw [Int.floor_eq_iff]; norm_num
  rw [hq, hc, hr]
  decide

/-- C4 amended: the quantizer maps `x` to the clipped value
`clip(32767 * x, -32768, 32767)` rounded TOWARD ZERO (direct C cast), not to
nearest: the resulting integer is never farther from zero than the clipped
value and differs from it by strictly less than 1. -/
theorem quantize_truncates_toward_zero (x : ℝ) :
    |((quantize x : ℤ) : ℝ)| ≤ |clip32 (32767 * x)| ∧
      |clip32 (32767 * x) - ((quantize x : ℤ) : ℝ)| < 1 := by
  unfold quantize truncR
  set v := clip32 (32767 * x) with hv
  split
  · have h0 : (0 : ℝ) ≤ v := by assumption
    have hle : (⌊v⌋ : ℝ) ≤ v := Int.floor_le v
    have hlt : v < ⌊v⌋ + 1 := Int.lt_floor_add_one v
    have hq0 : (0 : ℝ) ≤ (⌊v⌋ : ℝ) := by exact_mod_cast Int.floor_nonneg.mpr h0
    rw [abs_of_nonneg hq0, abs_of_nonneg h0, abs_of_nonneg (by linarith)]
    constructor <;> linarith
  · have h0 : v < 0 := lt_of_not_le (by assumption)
    have hle : v ≤ (⌈v⌉ : ℝ) := Int.le_ceil v
    have hlt : (⌈v⌉ : ℝ) < v + 1 := Int.ceil_lt_add_one v
    have hq0 : (⌈v⌉ : ℝ) ≤ 0 := by
      exact_mod_cast Int.ceil_le.mpr (by exact_mod_cast le_of_lt h0 : v ≤ ((0 : ℤ) : ℝ))
    rw [abs_of_nonpos hq0, abs_of_nonpos (le_of_lt h0), abs_of_nonpos (by linarith)]
    constructor <;> linarith

/-! ### C6: the spectral filter gains -/

/-- C6: the DC bin (index 0) has frequency 0 and gain exactly 1; every bin with
nonzero frequency gets gain `1/sqrt(|frequency|)` and its divisor
`sqrt(|frequency|)` is nonzero; and (for a positive sample rate) every bin
other than index 0 has nonzero frequency, so index 0 is the only bin the
singularity guard touches and no division by zero ever happens. -/
theorem pinkFilter_spec (n r k : ℕ) :
    (freqQ n r 0 = 0 ∧ pinkFilter n r 0 = 1) ∧
      (freqQ n r k ≠ 0 →
        pinkFilter n r k = 1 / Real.sqrt |(freqQ n r k : ℝ)| ∧
          Real.sqrt |(freqQ n r k : ℝ)| ≠ 0) ∧
      (0 < r → k ≠ 0 → k < n → freqQ n r k ≠ 0) := by
  have hdc : freqQ n r 0 = 0 := by
    unfold freqQ
    by_cases h : 0 < (n + 1) / 2
    · rw [if_pos h]; simp
    · have hn : n = 0 := by omega
      subst hn; simp
  refine ⟨⟨hdc, by unfold pinkFilter; simp⟩, ?_, ?_⟩
  · intro hfreq
    have hk : k ≠ 0 := by
      intro h
      exact hfreq (h ▸ hdc)
    constructor
    · unfold pinkFilter
      rw [if_neg hk, if_neg hfreq]
    · have habs : (0 : ℝ) < |(freqQ n r k : ℝ)| := by
        rw [abs_pos]
        exact_mod_cast hfreq
      exact ne_of_gt (Real.sqrt_pos.mpr habs)
  · intro hr hk hkn
    unfold freqQ
    have hn : (0 : ℚ) < (n : ℚ) := by
      have : 0 < n := lt_of_le_of_lt (Nat.zero_le k) hkn
      exact_mod_cast this
    apply div_ne_zero _ (ne_of_gt hn)
    have hm : (if k < (n + 1) / 2 then (k : ℤ) else (k : ℤ) - n) ≠ 0 := by
      split
      · exact_mod_cast hk
      · have : (k : ℤ) < n := by exact_mod_cast hkn
        omega
    have : ((if k < (n + 1) / 2 then (k : ℤ) else (k : ℤ) - n) * r : ℤ) ≠ 0 :=
      mul_ne_zero hm (by exact_mod_cast Nat.pos_iff_ne_zero.mp hr)
    exact_mod_cast this

/-- C6 witness: in a 2-sample buffer at sample rate 20, bin 1 has frequency
-10, so its gain is `1/sqrt(10)` and the square root in the divisor is
nonzero. -/
theorem pinkFilter_spec_witness :
    freqQ 2 20 1 = -10 ∧
      pinkFilter 2 20 1 = 1 / Real.sqrt |((-10 : ℚ) : ℝ)| ∧
        Real.sqrt |((-10 : ℚ) : ℝ)| ≠ 0 := by
  have h := pinkFilter_spec 2 20 1
  have hval : freqQ 2 20 1 = -10 := by
    unfold freqQ
    rw [if_neg (by norm_num : ¬ (1 : ℕ) < (2 + 1) / 2)]
    norm_num
  have hf : freqQ 2 20 1 ≠ 0 := h.2.2 (by norm_num) (by norm_num) (by norm_num)
  refine ⟨hval, ?_, ?_⟩
  · rw [← hval]; exact (h.2.1 hf).1
  · rw [← hval]; exact (h.2.1 hf).2

/-! ### C3: the fade envelope -/

/-- C3: for `2 ≤ fade_samples ≤ n` the envelope is 1 outside the two fade
windows; the first `fade_samples` entries (where not overwritten by the
fade-out window) carry the linear ramp `i/(fs-1)`, strictly increasing, hitting
0 at index 0 and 1 at index `fs-1` when the windows do not overlap; the last
`fade_samples` entries always carry the linear ramp `(n-1-i)/(fs-1)`, strictly
decreasing from 1 at index `n-fs` to 0 at index `n-1` — in particular on
overlapping indices the fade-out values win, because that slice assignment
executes last. -/
theorem envelope_spec (n fs : ℕ) (h2 : 2 ≤ fs) (hfn : fs ≤ n) :
    (∀ i, fs ≤ i → i < n - fs → envelope n fs i = 1) ∧
      (∀ i, i < fs → i < n - fs → envelope n fs i = (i : ℚ) / ((fs : ℚ) - 1)) ∧
      (∀ i j, i < j → j < fs → j < n - fs → envelope n fs i < envelope n fs j) ∧
      (∀ i, n - fs ≤ i → i < n →
        envelope n fs i = ((n : ℚ) - 1 - (i : ℚ)) / ((fs : ℚ) - 1)) ∧
      envelope n fs (n - fs) = 1 ∧
      envelope n fs (n - 1) = 0 ∧
      (∀ i j, n - fs ≤ i → i < j → j < n → envelope n fs j < envelope n fs i) ∧
      (fs + fs ≤ n → envelope n fs 0 = 0 ∧ envelope n fs (fs - 1) = 1) := by
  have hfs1 : fs ≠ 1 := by omega
  have hpos : (0 : ℚ) < (fs : ℚ) - 1 := by
    have : (2 : ℚ) ≤ (fs : ℚ) := by exact_mod_cast h2
    linarith
  have hmid : ∀ i, fs ≤ i → i < n - fs → envelope n fs i = 1 := by
    intro i h1 h2i
    unfold envelope
    rw [if_neg (by omega), if_neg (by omega)]
  have hin : ∀ i, i < fs → i < n - fs → envelope n fs i = (i : ℚ) / ((fs : ℚ) - 1) := by
    intro i h1 h2i
    unfold envelope linIn
    rw [if_neg (by omega), if_pos h1, if_neg hfs1]
  have hout : ∀ i, n - fs ≤ i → i < n →
      envelope n fs i = ((n : ℚ) - 1 - (i : ℚ)) / ((fs : ℚ) - 1) := by
    intro i h1 h2i
    unfold envelope linOut
    rw [if_pos h1, if_neg hfs1, Nat.cast_sub h1, Nat.cast_sub hfn]
    field_simp
    ring
  refine ⟨hmid, hin, ?_, hout, ?_, ?_, ?_, ?_⟩
  · intro i j hij hj hjn
    rw [hin i (lt_trans hij hj) (lt_trans hij hjn), hin j hj hjn]
    exact div_lt_div_of_pos_right (by exact_mod_cast hij) hpos
  · rw [hout (n - fs) (le_refl _) (by omega)]
    rw [Nat.cast_sub hfn]
    field_simp
  · rw [hout (n - 1) (by omega) (by omega), Nat.cast_sub (by omega : 1 ≤ n)]
    simp
  · intro i j h1 hij hjn
    rw [hout i h1 (lt_trans hij hjn), hout j (by omega) hjn]
    apply div_lt_div_of_pos_right _ hpos
    have : (i : ℚ) < (j : ℚ) := by exact_mod_cast hij
    linarith
  · intro hov
    constructor
    · rw [hin 0 (by omega) (by omega)]
      simp
    · rw [hin (fs - 1) (by omega) (by omega), Nat.cast_sub (by omega : 1 ≤ fs)]
      field_simp

/-- C3 witness: in a 10-sample buffer with 3 fade samples, the middle index 5
has gain 1, index 1 sits on the fade-in ramp at value 1/2, and the final index
9 has gain 0. -/
theorem envelope_spec_witness :
    envelope 10 3 5 = 1 ∧ envelope 10 3 1 = 1 / 2 ∧ envelope 10 3 9 = 0 := by
  have h := envelope_spec 10 3 (by norm_num) (by norm_num)
  refine ⟨h.1 5 (by norm_num) (by norm_num), ?_, ?_⟩
  · have := h.2.1 1 (by norm_num) (by norm_num)
    rw [this]
    norm_num
  · have := h.2.2.2.2.2.1
    norm_num at this
    exact this

/-! ### C7: normalization scales the peak to exactly 0.3 -/

theorem listMax_nonneg (l : List ℝ) : 0 ≤ listMax l := by
  induction l with
  | nil => simp [listMax]
  | cons x t ih =>
    simp only [listMax, List.foldr_cons] at *
    exact le_trans ih (le_max_right x _)

theorem le_listMax {x : ℝ} {l : List ℝ} (h : x ∈ l) : x ≤ listMax l := by
  induction l with
  | nil => cases h
  | cons y t ih =>
    simp only [listMax, List.foldr_cons] at *
    rcases List.mem_cons.mp h with h1 | h2
    · subst h1; exact le_max_left _ _
    · exact le_trans (ih h2) (le_max_right _ _)

theorem listMax_map_mul (c : ℝ) (hc : 0 ≤ c) (l : List ℝ) :
    listMax (l.map fun x => c * x) = c * listMax l := by
  induction l with
  | nil => simp [listMax]
  | cons y t ih =>
    simp only [listMax, List.map_cons, List.foldr_cons] at *
    rw [ih, mul_max_of_nonneg _ _ hc]

theorem maxAbs_nonneg (n : ℕ) (f : ℕ → ℝ) : 0 ≤ maxAbs n f :=
  listMax_nonneg _

theorem abs_le_maxAbs (n : ℕ) (f : ℕ → ℝ) {i : ℕ} (h : i < n) :
    |f i| ≤ maxAbs n f :=
  le_listMax (List.mem_map_of_mem _ (List.mem_range.mpr h))

theorem maxAbs_pos {n : ℕ} {f : ℕ → ℝ} (h : maxAbs n f ≠ 0) : 0 < maxAbs n f :=
  lt_of_le_of_ne (maxAbs_nonneg n f) (Ne.symm h)

/-- Normalizing any nonzero buffer by its own maximum absolute value and
scaling by 0.3 yields a buffer whose maximum absolute value is exactly 0.3. -/
theorem maxAbs_normalize (n : ℕ) (f : ℕ → ℝ) (hM : maxAbs n f ≠ 0) :
    maxAbs n (fun i => f i / maxAbs n f * (3 / 10)) = 3 / 10 := by
  set M := maxAbs n f with hMdef
  have hM0 : 0 ≤ M := maxAbs_nonneg n f
  have hc : (0 : ℝ) ≤ 3 / 10 / M := div_nonneg (by norm_num) hM0
  have key : ∀ i : ℕ, |f i / M * (3 / 10)| = 3 / 10 / M * |f i| := by
    intro i
    rw [abs_mul, abs_div, abs_of_nonneg hM0,
      abs_of_nonneg (by norm_num : (0 : ℝ) ≤ 3 / 10)]
    ring
  show listMax ((List.range n).map fun i => |f i / M * (3 / 10)|) = 3 / 10
  simp only [key]
  have hmap : ((List.range n).map fun i => 3 / 10 / M * |f i|) =
      ((List.range n).map fun i => |f i|).map fun x => 3 / 10 / M * x := by
    rw [List.map_map]
    rfl
  have hL : listMax ((List.range n).map fun i => |f i|) = M := by
    rw [hMdef]
    rfl
  rw [hmap, listMax_map_mul _ hc, hL]
  exact div_mul_cancel₀ _ hM

/-- C7: whenever the filtered-noise buffer has nonzero maximum absolute value,
the normalized pink-noise buffer has maximum absolute value exactly 0.3. -/
theorem pinkNoise_peak (d : ℚ) (r : ℕ) (ns : ℕ → ℝ)
    (hM : maxAbs (numSamples d r) (pinkRaw d r ns) ≠ 0) :
    maxAbs (numSamples d r) (pinkNoise d r ns) = 3 / 10 :=
  maxAbs_normalize (numSamples d r) (pinkRaw d r ns) hM

/-! ### C9: the generator is deterministic given the random draws -/

theorem fftNoise_congr (d : ℚ) (r : ℕ) {ns₁ ns₂ : ℕ → ℝ}
    (h : ∀ i, i < numSamples d r → ns₁ i = ns₂ i) :
    fftNoise d r ns₁ = fftNoise d r ns₂ := by
  funext k
  unfold fftNoise
  exact Finset.sum_congr rfl fun j hj => by rw [h j (Finset.mem_range.mp hj)]

theorem soundEnv_congr (d : ℚ) (r : ℕ) {ns₁ ns₂ : ℕ → ℝ}
    (h : ∀ i, i < numSamples d r → ns₁ i = ns₂ i) :
    soundEnv d r ns₁ = soundEnv d r ns₂ := by
  have hf := fftNoise_congr d r h
  funext i
  simp only [soundEnv, sound, pinkNoise, maxAbs, pinkRaw, fftFiltered, hf]

/-- C9: the generator is deterministic in its random source.  The only
randomness is the white-noise draw; with the same parameters and the same
first `len(t)` random draws (as produced by any fixed seed), the two runs
return identical results — in particular identical quantized sample
buffers. -/
theorem genChecked_deterministic (d : ℚ) (r : ℕ) (ns₁ ns₂ : ℕ → ℝ)
    (h : ∀ i, i < numSamples d r → ns₁ i = ns₂ i) :
    genChecked d r ns₁ = genChecked d r ns₂ := by
  unfold genChecked
  simp only [soundEnv_congr d r h]

/-! ### Concrete evaluation of the pipeline: duration 1/20 s at 20 Hz gives a
single sample, the DFT round-trip is the identity there, and the constant-1
noise stream produces the quantized buffer `[9830]`. -/

theorem numSamples_eval : numSamples (1 / 20) 20 = 1 := by
  unfold numSamples
  rw [show ((20 : ℕ) : ℚ) * (1 / 20 : ℚ) = 1 by norm_num,
    ratTrunc_eq_floor (by norm_num)]
  norm_num

theorem fadeSamples_eval : fadeSamples 20 = 1 := by
  rw [fadeSamples_div]

theorem fftNoise_eval : fftNoise (1 / 20) 20 onesNoise 0 = 1 := by
  unfold fftNoise
  simp only [numSamples_eval]
  rw [Finset.sum_range_one]
  simp [onesNoise]

theorem pinkFilter_eval : pinkFilter 1 20 0 = 1 := by
  simp [pinkFilter]

theorem fftFiltered_eval : fftFiltered (1 / 20) 20 onesNoise 0 = 1 := by
  unfold fftFiltered
  rw [fftNoise_eval, numSamples_eval, pinkFilter_eval]
  simp

theorem pinkRaw_eval : pinkRaw (1 / 20) 20 onesNoise 0 = 1 := by
  unfold pinkRaw
  simp only [numSamples_eval]
  rw [Finset.sum_range_one, fftFiltered_eval]
  simp

theorem maxAbs_pinkRaw_eval :
    maxAbs (numSamples (1 / 20) 20) (pinkRaw (1 / 20) 20 onesNoise) = 1 := by
  rw [numSamples_eval]
  unfold maxAbs listMax
  rw [show List.range 1 = [0] from rfl, List.map_cons, List.map_nil, pinkRaw_eval]
  simp

theorem tQ_eval : tQ (1 / 20) 20 0 = 0 := by
  simp [tQ]

theorem harmonic_eval : harmonic (1 / 20) 20 0 = 0 := by
  unfold harmonic
  rw [tQ_eval]
  push_cast
  simp

theorem pinkNoise_eval : pinkNoise (1 / 20) 20 onesNoise 0 = 3 / 10 := by
  unfold pinkNoise
  rw [pinkRaw_eval, maxAbs_pinkRaw_eval]
  norm_num

theorem envelope_eval : envelope 1 1 0 = 1 := by
  simp [envelope, linOut]

theorem soundEnv_eval : soundEnv (1 / 20) 20 onesNoise 0 = 3 / 10 := by
  unfold soundEnv sound
  rw [pinkNoise_eval, harmonic_eval, numSamples_eval, fadeSamples_eval, envelope_eval]
  push_cast
  ring

theorem quantize_soundEnv_eval : quantize (soundEnv (1 / 20) 20 onesNoise 0) = 9830 := by
  rw [soundEnv_eval]
  unfold quantize clip32 truncR
  rw [show ((32767 : ℝ) * (3 / 10)) = 98301 / 10 by norm_num]
  rw [max_eq_left (by norm_num), min_eq_right (by norm_num), if_pos (by norm_num)]
  rw [Int.floor_eq_iff]; norm_num

theorem genChecked_eval : genChecked (1 / 20) 20 onesNoise = Except.ok [9830] := by
  have h1 : ¬ ratTrunc (((20 : ℕ) : ℚ) * (1 / 20)) < 0 := by
    rw [show (((20 : ℕ) : ℚ) * (1 / 20 : ℚ)) = 1 by norm_num,
      ratTrunc_eq_floor (by norm_num)]
    norm_num
  have h2 : ¬ numSamples (1 / 20) 20 = 0 := by rw [numSamples_eval]; omega
  have h3 : ¬ (fadeSamples 20 = 0 ∨ numSamples (1 / 20) 20 < fadeSamples 20) := by
    rw [numSamples_eval, fadeSamples_eval]
    omega
  unfold genChecked
  rw [if_neg h1, if_neg h2, if_neg h3, numSamples_eval,
    show List.range 1 = [0] from rfl]
  rw [List.map_cons, List.map_nil, quantize_soundEnv_eval]

/-- C9 witness: two noise streams that agree on the two draws the 2-sample run
reads (but differ beyond them) produce identical generator results. -/
theorem genChecked_deterministic_witness :
    genChecked (1 / 10) 20 (fun _ => 1) =
      genChecked (1 / 10) 20 (fun i => if i < 5 then 1 else 0) := by
  apply genChecked_deterministic
  intro i hi
  have hn : numSamples (1 / 10) 20 = 2 := by
    unfold numSamples
    rw [show ((20 : ℕ) : ℚ) * (1 / 10 : ℚ) = 2 by norm_num,
      ratTrunc_eq_floor (by norm_num), show ⌊(2 : ℚ)⌋ = 2 by norm_num]
    rfl
  rw [hn] at hi
  have h5 : i < 5 := by omega
  simp [h5]

/-- C7 witness: on the concrete 1-sample run with constant-1 noise the
filtered buffer has maximum absolute value 1 ≠ 0, and the normalized
pink-noise buffer has maximum absolute value exactly 0.3. -/
theorem pinkNoise_peak_witness :
    maxAbs (numSamples (1 / 20) 20) (pinkNoise (1 / 20) 20 onesNoise) = 3 / 10 := by
  apply pinkNoise_peak
  rw [maxAbs_pinkRaw_eval]
  norm_num

/-! ### C1: the buffer length is floor(duration * sample_rate) -/

/-- C1: whenever the generator runs to completion, the produced sample buffer
has exactly `⌊duration * sample_rate⌋` entries (for nonnegative durations the
truncation performed by `int(...)` agrees with the floor); in particular
duration 0.5 at 44100 Hz yields 22050 samples. -/
theorem buffer_length (d : ℚ) (r : ℕ) (ns : ℕ → ℝ) (out : List ℤ)
    (hd : 0 ≤ d) (h : genChecked d r ns = Except.ok out) :
    out.length = (⌊d * (r : ℚ)⌋).toNat ∧
      (d = 1 / 2 → r = 44100 → out.length = 22050) := by
  unfold genChecked at h
  split_ifs at h
  injection h with h
  have hlen : out.length = numSamples d r := by
    rw [← h, List.length_map, List.length_range]
  have hfloor : numSamples d r = (⌊d * (r : ℚ)⌋).toNat := by
    unfold numSamples
    rw [ratTrunc_eq_floor (mul_nonneg (Nat.cast_nonneg r) hd), mul_comm]
  refine ⟨hlen.trans hfloor, ?_⟩
  intro hd2 hr2
  subst hd2
  subst hr2
  rw [hlen, hfloor]
  rw [show ((1 / 2 : ℚ) * ((44100 : ℕ) : ℚ)) = ((22050 : ℤ) : ℚ) by norm_num,
    Int.floor_intCast]
  rfl

/-- C1 witness: the concrete 1-sample run has a nonnegative duration, returns
a buffer, and that buffer's length is `⌊duration * sample_rate⌋ = 1`. -/
theorem buffer_length_witness :
    (0 : ℚ) ≤ 1 / 20 ∧
      ([9830] : List ℤ).length = (⌊(1 / 20 : ℚ) * ((20 : ℕ) : ℚ)⌋).toNat :=
  ⟨by norm_num,
    (buffer_length (1 / 20) 20 onesNoise [9830] (by norm_num) genChecked_eval).1⟩

/-! ### C10: pre-quantization headroom -/

theorem tQ_nonneg (d : ℚ) (r : ℕ) (i : ℕ) (hi : i < numSamples d r) :
    0 ≤ tQ d r i := by
  have hn : 1 ≤ numSamples d r := Nat.one_le_iff_ne_zero.mpr (Nat.pos_iff_ne_zero.mp
    (lt_of_le_of_lt (Nat.zero_le i) hi))
  have h1 : (1 : ℤ) ≤ ratTrunc ((r : ℚ) * d) := by
    unfold numSamples at hn
    omega
  have h2 : (1 : ℚ) ≤ (r : ℚ) * d := one_le_of_one_le_ratTrunc h1
  have hd : 0 ≤ d := by
    by_contra hle
    push_neg at hle
    nlinarith [Nat.cast_nonneg (α := ℚ) r]
  exact div_nonneg (mul_nonneg hd (Nat.cast_nonneg i)) (Nat.cast_nonneg _)

theorem harmonic_bound (d : ℚ) (r : ℕ) (i : ℕ) (hi : i < numSamples d r) :
    |harmonic d r i| ≤ 3 / 20 := by
  have ht : (0 : ℝ) ≤ ((tQ d r i : ℚ) : ℝ) := by exact_mod_cast tQ_nonneg d r i hi
  have e5 : Real.exp (-((tQ d r i : ℚ) : ℝ) * 5) ≤ 1 := by
    rw [← Real.exp_zero]
    exact Real.exp_le_exp.mpr (by nlinarith)
  have e8 : Real.exp (-((tQ d r i : ℚ) : ℝ) * 8) ≤ 1 := by
    rw [← Real.exp_zero]
    exact Real.exp_le_exp.mpr (by nlinarith)
  have b1 : |(1 / 10 : ℝ) * Real.sin (2 * Real.pi * 2000 * ((tQ d r i : ℚ) : ℝ)) *
      Real.exp (-((tQ d r i : ℚ) : ℝ) * 5)| ≤ 1 / 10 := by
    rw [abs_mul, abs_mul, abs_of_nonneg (by norm_num : (0 : ℝ) ≤ 1 / 10),
      abs_of_nonneg (le_of_lt (Real.exp_pos _))]
    nlinarith [Real.abs_sin_le_one (2 * Real.pi * 2000 * ((tQ d r i : ℚ) : ℝ)),
      abs_nonneg (Real.sin (2 * Real.pi * 2000 * ((tQ d r i : ℚ) : ℝ))),
      Real.exp_pos (-((tQ d r i : ℚ) : ℝ) * 5)]
  have b2 : |(1 / 20 : ℝ) * Real.sin (2 * Real.pi * 3000 * ((tQ d r i : ℚ) : ℝ)) *
      Real.exp (-((tQ d r i : ℚ) : ℝ) * 8)| ≤ 1 / 20 := by
    rw [abs_mul, abs_mul, abs_of_nonneg (by norm_num : (0 : ℝ) ≤ 1 / 20),
      abs_of_nonneg (le_of_lt (Real.exp_pos _))]
    nlinarith [Real.abs_sin_le_one (2 * Real.pi * 3000 * ((tQ d r i : ℚ) : ℝ)),
      abs_nonneg (Real.sin (2 * Real.pi * 3000 * ((tQ d r i : ℚ) : ℝ))),
      Real.exp_pos (-((tQ d r i : ℚ) : ℝ) * 8)]
  calc |harmonic d r i| ≤
      |(1 / 10 : ℝ) * Real.sin (2 * Real.pi * 2000 * ((tQ d r i : ℚ) : ℝ)) *
          Real.exp (-((tQ d r i : ℚ) : ℝ) * 5)| +
        |(1 / 20 : ℝ) * Real.sin (2 * Real.pi * 3000 * ((tQ d r i : ℚ) : ℝ)) *
          Real.exp (-((tQ d r i : ℚ) : ℝ) * 8)| := abs_add _ _
    _ ≤ 1 / 10 + 1 / 20 := add_le_add b1 b2
    _ = 3 / 20 := by norm_num

theorem envelope_mem (n fs i : ℕ) (hi : i < n) :
    0 ≤ envelope n fs i ∧ envelope n fs i ≤ 1 := by
  unfold envelope linOut linIn
  split
  · rename_i hbr
    split
    · norm_num
    · rename_i hfs1
      have hfs0 : fs ≠ 0 := by
        intro h
        subst h
        omega
      have hj : i - (n - fs) ≤ fs - 1 := by omega
      have hpos : (0 : ℚ) < (fs : ℚ) - 1 := by
        have : (2 : ℚ) ≤ (fs : ℚ) := by exact_mod_cast (by omega : 2 ≤ fs)
        linarith
      have hc : ((i - (n - fs) : ℕ) : ℚ) ≤ (fs : ℚ) - 1 := by
        rw [show ((fs : ℚ) - 1) = ((fs - 1 : ℕ) : ℚ) from by
          rw [Nat.cast_sub (by omega)]; norm_num]
        exact_mod_cast hj
      have hdiv0 : (0 : ℚ) ≤ ((i - (n - fs) : ℕ) : ℚ) / ((fs : ℚ) - 1) :=
        div_nonneg (Nat.cast_nonneg _) (le_of_lt hpos)
      have hdiv1 : ((i - (n - fs) : ℕ) : ℚ) / ((fs : ℚ) - 1) ≤ 1 :=
        (div_le_one hpos).mpr hc
      constructor <;> linarith
  · split
    · rename_i hbr hfs
      split
      · norm_num
      · rename_i hfs1
        have hj : i ≤ fs - 1 := by omega
        have hpos : (0 : ℚ) < (fs : ℚ) - 1 := by
          have : (2 : ℚ) ≤ (fs : ℚ) := by exact_mod_cast (by omega : 2 ≤ fs)
          linarith
        have hc : (i : ℚ) ≤ (fs : ℚ) - 1 := by
          rw [show ((fs : ℚ) - 1) = ((fs - 1 : ℕ) : ℚ) from by
            rw [Nat.cast_sub (by omega)]; norm_num]
          exact_mod_cast hj
        have hdiv0 : (0 : ℚ) ≤ (i : ℚ) / ((fs : ℚ) - 1) :=
          div_nonneg (Nat.cast_nonneg _) (le_of_lt hpos)
        have hdiv1 : (i : ℚ) / ((fs : ℚ) - 1) ≤ 1 := (div_le_one hpos).mpr hc
        constructor <;> linarith
    · norm_num

theorem pinkNoise_bound (d : ℚ) (r : ℕ) (ns : ℕ → ℝ) (i : ℕ)
    (hi : i < numSamples d r)
    (hM : maxAbs (numSamples d r) (pinkRaw d r ns) ≠ 0) :
    |pinkNoise d r ns i| ≤ 3 / 10 := by
  have hMpos := maxAbs_pos hM
  have habs := abs_le_maxAbs (numSamples d r) (pinkRaw d r ns) hi
  unfold pinkNoise
  rw [abs_mul, abs_div, abs_of_nonneg (le_of_lt hMpos),
    abs_of_nonneg (by norm_num : (0 : ℝ) ≤ 3 / 10)]
  have h1 : |pinkRaw d r ns i| / maxAbs (numSamples d r) (pinkRaw d r ns) ≤ 1 :=
    (div_le_one hMpos).mpr habs
  nlinarith

/-- C10: whenever the normalization divisor is nonzero, every pre-quantization
sample is bounded by 0.3 + 0.15 = 0.45 in absolute value (pink-noise peak 0.3,
harmonic amplitudes 0.1 and 0.05, envelope gains in [0, 1]); hence the clip
in the quantizer is the identity on every sample and every quantized sample
lies strictly inside (-14746, 14746). -/
theorem preQuant_bounds (d : ℚ) (r : ℕ) (ns : ℕ → ℝ) (i : ℕ)
    (hi : i < numSamples d r)
    (hM : maxAbs (numSamples d r) (pinkRaw d r ns) ≠ 0) :
    |soundEnv d r ns i| ≤ 9 / 20 ∧
      clip32 (32767 * soundEnv d r ns i) = 32767 * soundEnv d r ns i ∧
      -14746 < quantize (soundEnv d r ns i) ∧
      quantize (soundEnv d r ns i) < 14746 := by
  have hsound : |sound d r ns i| ≤ 9 / 20 := by
    unfold sound
    calc |pinkNoise d r ns i + harmonic d r i| ≤
        |pinkNoise d r ns i| + |harmonic d r i| := abs_add _ _
      _ ≤ 3 / 10 + 3 / 20 :=
        add_le_add (pinkNoise_bound d r ns i hi hM) (harmonic_bound d r i hi)
      _ = 9 / 20 := by norm_num
  have henv := envelope_mem (numSamples d r) (fadeSamples r) i hi
  have henv0 : (0 : ℝ) ≤ ((envelope (numSamples d r) (fadeSamples r) i : ℚ) : ℝ) := by
    exact_mod_cast henv.1
  have henv1 : ((envelope (numSamples d r) (fadeSamples r) i : ℚ) : ℝ) ≤ 1 := by
    exact_mod_cast henv.2
  have hse : |soundEnv d r ns i| ≤ 9 / 20 := by
    unfold soundEnv
    rw [abs_mul]
    calc |sound d r ns i| * |((envelope (numSamples d r) (fadeSamples r) i : ℚ) : ℝ)| ≤
        (9 / 20) * 1 :=
        mul_le_mul hsound (abs_le.mpr ⟨by linarith, henv1⟩) (abs_nonneg _) (by norm_num)
      _ = 9 / 20 := by norm_num
  have hs32 : |32767 * soundEnv d r ns i| ≤ 294903 / 20 := by
    rw [abs_mul, abs_of_nonneg (by norm_num : (0 : ℝ) ≤ 32767)]
    nlinarith
  obtain ⟨hlo, hhi⟩ := abs_le.mp hs32
  have hclip : clip32 (32767 * soundEnv d r ns i) = 32767 * soundEnv d r ns i := by
    unfold clip32
    rw [max_eq_left (by linarith), min_eq_right (by linarith)]
  refine ⟨hse, hclip, ?_⟩
  unfold quantize truncR
  rw [hclip]
  split
  · constructor
    · have h0 : (0 : ℤ) ≤ ⌊32767 * soundEnv d r ns i⌋ :=
        Int.floor_nonneg.mpr (by assumption)
      omega
    · have h1 : (⌊32767 * soundEnv d r ns i⌋ : ℝ) < 14746 :=
        lt_of_le_of_lt (le_trans (Int.floor_le _) hhi) (by norm_num)
      exact_mod_cast h1
  · constructor
    · have h1 : (-14746 : ℝ) < (⌈32767 * soundEnv d r ns i⌉ : ℝ) :=
        lt_of_lt_of_le (by linarith) (Int.le_ceil _)
      exact_mod_cast h1
    · have hneg : 32767 * soundEnv d r ns i ≤ 0 :=
        le_of_lt (lt_of_not_le (by assumption))
      have h0 : ⌈32767 * soundEnv d r ns i⌉ ≤ 0 :=
        Int.ceil_le.mpr (by exact_mod_cast hneg)
      omega

/-- C10 witness: on the concrete 1-sample run with constant-1 noise the
normalization divisor is 1 ≠ 0, the single pre-quantization sample 0.3 is
within the 0.45 bound, and its quantized value 9830 lies strictly inside
(-14746, 14746). -/
theorem preQuant_bounds_witness :
    |soundEnv (1 / 20) 20 onesNoise 0| ≤ 9 / 20 ∧
      -14746 < quantize (soundEnv (1 / 20) 20 onesNoise 0) ∧
      quantize (soundEnv (1 / 20) 20 onesNoise 0) < 14746 := by
  have hM : maxAbs (numSamples (1 / 20) 20) (pinkRaw (1 / 20) 20 onesNoise) ≠ 0 := by
    rw [maxAbs_pinkRaw_eval]
    norm_num
  have hi : (0 : ℕ) < numSamples (1 / 20) 20 := by
    rw [numSamples_eval]
    omega
  have h := preQuant_bounds (1 / 20) 20 onesNoise 0 hi hM
  exact ⟨h.1, h.2.2.1, h.2.2.2⟩

end Whisprin
